import Mathlib

/-!
Verification of the lektor-i18n plugin (`lektor_i18n.py`) against its
specification.  Python strings are modelled as `List Char`; every Python
text operation used by the plugin (`str.split`, `str.join`, `str.strip`,
`str.replace`, `re.sub` with the fixed `HL_PATTERN`, `re.split` with the
fixed paragraph pattern) is given an executable Lean model.  Host-library
(Lektor / gettext) collaborators that the plugin calls but whose code is
not part of this repository are modelled from the specification and
marked as such in their doc comments.
-/

namespace LektorI18n

/-- Python strings, modelled as lists of characters. -/
abbrev Str := List Char

/-- Coerce a Lean string literal to the `Str` model. -/
def strOf (s : String) : Str := s.toList

/-- Python `\s` on the characters that can occur in content files:
space, tab, newline, carriage return, vertical tab, form feed. -/
def pySpace (c : Char) : Bool :=
  c == ' ' || c == '\t' || c == '\n' || c == '\r' || c == '\x0b' || c == '\x0c'

/-- Carriage-return / newline characters, the set stripped by
`chunk.strip("\r\n")` at `lektor_i18n.py:325`. -/
def crlfChar (c : Char) : Bool := c == '\r' || c == '\n'

/-- Strip characters satisfying `p` from the left end (Python `str.lstrip`). -/
def stripLeftBy (p : Char → Bool) (s : Str) : Str := s.dropWhile p

/-- Strip characters satisfying `p` from the right end (Python `str.rstrip`). -/
def stripRightBy (p : Char → Bool) (s : Str) : Str := (s.reverse.dropWhile p).reverse

/-- Python `str.strip()` (whitespace from both ends). -/
def pyStrip (s : Str) : Str := stripRightBy pySpace (stripLeftBy pySpace s)

/-- Python `str.strip("\r\n")` (only CR and LF from both ends),
as applied to extracted units at `lektor_i18n.py:325`. -/
def stripCRLF (s : Str) : Str := stripRightBy crlfChar (stripLeftBy crlfChar s)

/-- Python `str.split(sep)` for a single-character separator. -/
def splitOnChar (sep : Char) : Str → List Str
  | [] => [[]]
  | c :: rest =>
    if c = sep then [] :: splitOnChar sep rest
    else
      match splitOnChar sep rest with
      | [] => [[c]]
      | h :: t => (c :: h) :: t

/-- Python `sep.join(parts)`. -/
def joinSep (sep : Str) : List Str → Str
  | [] => []
  | [x] => x
  | x :: y :: rest => x ++ sep ++ joinSep sep (y :: rest)

theorem splitOnChar_ne_nil (sep : Char) (s : Str) : splitOnChar sep s ≠ [] := by
  cases s with
  | nil => simp [splitOnChar]
  | cons c rest =>
    simp only [splitOnChar]
    split
    · simp
    · cases h : splitOnChar sep rest <;> simp

/-- Splitting on a character and joining with it is the identity. -/
theorem joinSep_splitOnChar (sep : Char) (s : Str) :
    joinSep [sep] (splitOnChar sep s) = s := by
  induction s with
  | nil => simp [splitOnChar, joinSep]
  | cons c rest ih =>
    simp only [splitOnChar]
    by_cases hc : c = sep
    · subst hc
      simp only [if_pos rfl]
      cases h : splitOnChar c rest with
      | nil => exact absurd h (splitOnChar_ne_nil c rest)
      | cons h0 t0 =>
        rw [h] at ih
        simp [joinSep, ih]
    · simp only [if_neg hc]
      cases h : splitOnChar sep rest with
      | nil => exact absurd h (splitOnChar_ne_nil sep rest)
      | cons h0 t0 =>
        rw [h] at ih
        cases t0 with
        | nil => simp_all [joinSep]
        | cons y ys => simp_all [joinSep]

/-- Python `str.replace(old, new, 1)`: replace the first occurrence of
`old` (Python inserts `new` at position 0 when `old` is empty). -/
def replaceFirst : Str → Str → Str → Str
  | l, [], n => n ++ l
  | [], _ :: _, _ => []
  | c :: rest, p :: ps, n =>
    if (p :: ps).isPrefixOf (c :: rest) then n ++ (c :: rest).drop (p :: ps).length
    else c :: replaceFirst rest (p :: ps) n

/-- Worker for `replaceAll`, structurally recursive on a fuel bound. -/
def replaceAllGo (p n : Str) : Nat → Str → Str
  | 0, l => l
  | _ + 1, [] => []
  | fuel + 1, c :: rest =>
    if p.isPrefixOf (c :: rest) then n ++ replaceAllGo p n fuel ((c :: rest).drop p.length)
    else c :: replaceAllGo p n fuel rest

/-- Python `str.replace(old, new)`: replace every non-overlapping
occurrence, left to right (empty `old` interleaves `new` everywhere). -/
def replaceAll (l p n : Str) : Str :=
  match p with
  | [] => n ++ l.foldr (fun c acc => c :: n ++ acc) []
  | _ :: _ => replaceAllGo p n l.length l

/-- Replacing an occurrence of a pattern by the pattern itself changes nothing. -/
theorem replaceFirst_self (l p : Str) : replaceFirst l p p = l := by
  induction l with
  | nil => cases p <;> simp [replaceFirst]
  | cons c rest ih =>
    cases p with
    | nil => simp [replaceFirst]
    | cons q qs =>
      simp only [replaceFirst]
      by_cases h : (q :: qs).isPrefixOf (c :: rest)
      · rw [if_pos h]
        have hpre : (q :: qs) <+: (c :: rest) := by
          exact (List.isPrefixOf_iff_prefix).mp h
        obtain ⟨t, ht⟩ := hpre
        rw [← ht, List.drop_left' rfl]
      · rw [if_neg h]
        exact congrArg (c :: ·) ih

theorem replaceAllGo_self (p : Str) (hp : p ≠ []) :
    ∀ fuel l, l.length ≤ fuel → replaceAllGo p p fuel l = l := by
  intro fuel
  induction fuel with
  | zero =>
    intro l hl
    have : l = [] := List.length_eq_zero.mp (Nat.le_zero.mp hl)
    simp [this, replaceAllGo]
  | succ fuel ih =>
    intro l hl
    cases l with
    | nil => simp [replaceAllGo]
    | cons c rest =>
      simp only [replaceAllGo]
      by_cases h : p.isPrefixOf (c :: rest)
      · rw [if_pos h]
        have hpre : p <+: (c :: rest) := (List.isPrefixOf_iff_prefix).mp h
        obtain ⟨t, ht⟩ := hpre
        have hdrop : (c :: rest).drop p.length = t := by rw [← ht, List.drop_left' rfl]
        have hplen : 1 ≤ p.length := by
          cases p with
          | nil => exact absurd rfl hp
          | cons _ _ => simp
        have hlen : p.length + t.length = rest.length + 1 := by
          have h2 := congrArg List.length ht
          simp only [List.length_append, List.length_cons] at h2
          exact h2
        have hl' : rest.length + 1 ≤ fuel + 1 := by simpa using hl
        have htfuel : t.length ≤ fuel := by omega
        rw [hdrop, ih t htfuel, ht]
      · rw [if_neg h]
        refine congrArg (c :: ·) (ih rest ?_)
        simpa using Nat.le_of_succ_le_succ hl

/-- Replacing every occurrence of a pattern by itself changes nothing. -/
theorem replaceAll_self (l p : Str) : replaceAll l p p = l := by
  cases p with
  | nil =>
    simp only [replaceAll, List.nil_append]
    induction l with
    | nil => rfl
    | cons c rest ih => simp [ih]
  | cons q qs => exact replaceAllGo_self (q :: qs) (by simp) l.length l (Nat.le_refl _)

/-- Model of `re.sub(HL_PATTERN, "", line)` (`lektor_i18n.py:46`):
removes a leading markdown heading run `\s*#+\s*` or list marker
`\s*[*-]\s+`, trying the heading alternative first, greedily. -/
def hlStrip (s : Str) : Str :=
  let t := s.dropWhile pySpace
  if t.head? = some '#' then (t.dropWhile (· == '#')).dropWhile pySpace
  else
    match t with
    | c :: c2 :: rest =>
      if (c = '*' ∨ c = '-') ∧ pySpace c2 then (c2 :: rest).dropWhile pySpace else s
    | _ => s

/-- Index of the last newline in a string, if any. -/
def lastNlIdx : Str → Option Nat
  | [] => none
  | c :: rest =>
    match lastNlIdx rest with
    | some j => some (j + 1)
    | none => if c = '\n' then some 0 else none

/-- Length of the paragraph-separator match of `re.split("\n(?:\s*\n){1,}", ·)`
(`lektor_i18n.py:221`) at the head of the string: a newline followed by the
longest whitespace run that ends with a newline.  `none` when the pattern
does not match at the head. -/
def sepLenAt : Str → Option Nat
  | [] => none
  | c :: rest =>
    if c = '\n' then
      match lastNlIdx (rest.takeWhile pySpace) with
      | some j => some (j + 2)
      | none => none
    else none

theorem sepLenAt_ge_two {s : Str} {k : Nat} (h : sepLenAt s = some k) : 2 ≤ k := by
  match s with
  | [] => simp [sepLenAt] at h
  | c :: rest =>
    simp only [sepLenAt] at h
    by_cases hc : c = '\n'
    · rw [if_pos hc] at h
      cases hj : lastNlIdx (rest.takeWhile pySpace) with
      | none => rw [hj] at h; cases h
      | some j => rw [hj] at h; cases h; omega
    · rw [if_neg hc] at h; cases h

/-- Worker for `splitParas`, structurally recursive on a fuel bound. -/
def splitParasGo : Nat → Str → List Str
  | 0, _ => [[]]
  | _ + 1, [] => [[]]
  | fuel + 1, l@(c :: rest) =>
    match sepLenAt l with
    | some k => [] :: splitParasGo fuel (l.drop k)
    | none =>
      match splitParasGo fuel rest with
      | [] => [[c]]
      | h :: t => (c :: h) :: t

/-- Model of `split_paragraphs` (`lektor_i18n.py:218`): Python
`re.split("\n(?:\s*\n){1,}", document)`. -/
def splitParagraphs (document : Str) : List Str :=
  splitParasGo document.length document

/-- One line of `I18NPlugin.__trans_linewise` (`lektor_i18n.py:460-468`):
strip the line, remove the heading/list prefix, translate the stripped
version when non-empty, and re-inject it into the original line. -/
def transLine (tr : Str → Str) (line : Str) : Str :=
  let lineStripped := hlStrip (pyStrip line)
  let transStripline := if lineStripped.isEmpty then [] else tr lineStripped
  replaceFirst line lineStripped transStripline

/-- Model of `I18NPlugin.__trans_linewise` (`lektor_i18n.py:457-469`). -/
def transLinewise (tr : Str → Str) (content : Str) : Str :=
  joinSep (strOf "\n") ((splitOnChar '\n' content).map (transLine tr))

/-- Model of `I18NPlugin.__trans_parwise` (`lektor_i18n.py:471-479`):
translate each paragraph (stripped of surrounding CR/LF) and rejoin the
paragraphs with two newlines. -/
def transParwise (tr : Str → Str) (content : Str) : Str :=
  joinSep (strOf "\n\n") ((splitParagraphs content).map (fun paragraph =>
    let stripped := stripCRLF paragraph
    replaceAll paragraph stripped (tr stripped)))

/-- With an identity translator each line is reproduced byte-for-byte. -/
theorem transLine_id (line : Str) : transLine (fun u => u) line = line := by
  unfold transLine
  by_cases h : (hlStrip (pyStrip line)).isEmpty
  · have : hlStrip (pyStrip line) = [] := by simpa using h
    simp [h, this, replaceFirst]
  · simp only [h, if_neg, Bool.false_eq_true, if_false]
    exact replaceFirst_self line (hlStrip (pyStrip line))

/-- Line-wise rewriting with an identity translator is byte-identity. -/
theorem transLinewise_id (content : Str) :
    transLinewise (fun u => u) content = content := by
  unfold transLinewise
  have hmap : (splitOnChar '\n' content).map (transLine (fun u => u))
      = splitOnChar '\n' content := by
    calc (splitOnChar '\n' content).map (transLine (fun u => u))
        = (splitOnChar '\n' content).map id := List.map_congr_left (fun l _ => transLine_id l)
      _ = splitOnChar '\n' content := List.map_id _
  rw [hmap]
  have : strOf "\n" = ['\n'] := rfl
  rw [this]
  exact joinSep_splitOnChar '\n' content

/-- Paragraph-wise rewriting with an identity translator reproduces every
paragraph but rejoins them with exactly two newlines. -/
theorem transParwise_id (content : Str) :
    transParwise (fun u => u) content
      = joinSep (strOf "\n\n") (splitParagraphs content) := by
  unfold transParwise
  congr 1
  calc (splitParagraphs content).map
          (fun paragraph => replaceAll paragraph (stripCRLF paragraph) ((fun u => u) (stripCRLF paragraph)))
      = (splitParagraphs content).map id :=
        List.map_congr_left (fun p _ => replaceAll_self p (stripCRLF p))
    _ = splitParagraphs content := List.map_id _

/-- Value of a field option in the datamodel: Lektor `.ini` options are
strings, but the truthy set checked at `lektor_i18n.py:307` and
`lektor_i18n.py:379-384` also contains the integer `1`. -/
inductive OptVal where
  | s (v : Str)
  | i (v : Int)
deriving DecidableEq

/-- Schema entry for one document key: name, whether the declared type is
the structured `FlowType`, and the optional `translate` option
(`none` models `"translate" not in field.options`). -/
structure Field where
  name : Str
  isFlow : Bool
  translate : Option OptVal
deriving DecidableEq

/-- The check `("translate" in field.options) and field.options["translate"]
in ("True", "true", "1", 1)` (`lektor_i18n.py:305-307` and `379-384`). -/
def truthyTranslate : Option OptVal → Bool
  | some (.s v) => v == strOf "True" || v == strOf "true" || v == strOf "1"
  | some (.i n) => n == 1
  | none => false

/-- A compiled per-language message catalog: a finite unit-to-translation map. -/
abbrev Catalog := List (Str × Str)

/-- Per-language compiled catalogs: `none` models the absence of a compiled
catalog file for that language. -/
abbrev Catalogs := Str → Option Catalog

/-- First-match association lookup. -/
def lookupKV {α : Type} (ps : List (Str × α)) (k : Str) : Option α :=
  (ps.find? (fun p => p.1 == k)).map (fun p => p.2)

/-- Modelled from the spec: the Catalog Adapter obtained by
`gettext.translation("contents", ..., languages=[language], fallback=True)`
(`lektor_i18n.py:385-390`, gettext is a host-library external).  Per §4.5
it resolves the compiled catalog for the language and degrades to
returning the unit unchanged when no compiled catalog exists or the unit
has no entry. -/
def trOf (catalogs : Catalogs) (language : Str) : Str → Str := fun u =>
  match catalogs language with
  | none => u
  | some cat =>
    match lookupKV cat u with
    | some v => v
    | none => u

/-- Drop a trailing newline from a raw line. -/
def stripNlEnd (line : Str) : Str :=
  if line.getLast? = some '\n' then line.dropLast else line

/-- Split a text into its lines, each line keeping its trailing newline. -/
def splitLinesKeepNl (s : Str) : List Str :=
  s.foldr
    (fun c acc =>
      if c = '\n' then [c] :: acc
      else
        match acc with
        | [] => [[c]]
        | h :: t => (c :: h) :: t)
    []

/-- A separator line of three or more dashes (spec §4.1). -/
def isDashLine (line : Str) : Bool :=
  let core := stripNlEnd line
  decide (3 ≤ core.length) && core.all (· == '-')

/-- Characters allowed in a document key (spec §4.1: letters, digits,
dot, dash, underscore). -/
def identChar (c : Char) : Bool :=
  c.isAlphanum || c == '.' || c == '_' || c == '-'

/-- Parse a key line `identifier: rest` (spec §4.1); one space after the
colon is consumed, the remainder of the line (newline included) becomes
the first chunk of the value. -/
def keyParse (line : Str) : Option (Str × Str) :=
  let name := line.takeWhile identChar
  let rest := line.drop name.length
  if name.isEmpty then none
  else
    match rest with
    | ':' :: r => some (name, if r.head? = some ' ' then r.tail else r)
    | _ => none

/-- Append a pending `(key, value-lines)` pair, if any. -/
def tokFlush (st : Option (Str × List Str)) (acc : List (Str × List Str)) :
    List (Str × List Str) :=
  match st with
  | none => acc
  | some kv => acc ++ [kv]

/-- One step of the document segmenter fold. -/
def tokStep (p : List (Str × List Str) × Option (Str × List Str)) (line : Str) :
    List (Str × List Str) × Option (Str × List Str) :=
  if isDashLine line then (tokFlush p.2 p.1, none)
  else
    match p.2 with
    | none =>
      match keyParse line with
      | some (k, r) => (p.1, some (k, [r]))
      | none => (p.1, none)
    | some (k, buf) => (p.1, some (k, buf ++ [line]))

/-- Modelled from the spec: `lektor.metaformat.tokenize`, the Document
Segmenter external (spec §4.1).  Produces ordered `(key, value-lines)`
pairs; a key line `identifier:` opens a block, a dash line of three or
more dashes closes it (the dash line belongs to no value), every other
line inside a block — blank lines, malformed key lines and flow-block
marker lines included — is value content (marker lines must stay inside
values because `process_flowblock_data` re-parses them from the section
text, `lektor_i18n.py:332-336`). -/
def tokenize (s : Str) : List (Str × List Str) :=
  let r := (splitLinesKeepNl s).foldl tokStep ([], none)
  tokFlush r.2 r.1

/-- Python `dict(pairs)` flattened back to an ordered association list:
first-seen key order, last value wins. -/
def dedupKeys {α : Type} (ps : List (Str × α)) : List (Str × α) :=
  ps.foldl
    (fun acc kv =>
      if acc.any (fun p => p.1 == kv.1) then
        acc.map (fun p => if p.1 == kv.1 then (p.1, kv.2) else p)
      else acc ++ [kv])
    []

/-- Guarantee a trailing newline on a serialized line. -/
def ensureNl (s : Str) : Str :=
  if s.getLast? = some '\n' then s else s ++ strOf "\n"

/-- Modelled from the spec: one `(key, value)` item of
`lektor.metaformat.serialize`, the inverse of the Segmenter (spec §4.4):
a key with an empty value is re-emitted as a bare `key:` line, a value
beginning with a newline continues on the following lines, any other
value follows `key: ` on the same line. -/
def serializeItem (kv : Str × Str) : Str :=
  if kv.2.isEmpty then kv.1 ++ strOf ":\n"
  else if kv.2.head? = some '\n' then ensureNl (kv.1 ++ strOf ":" ++ kv.2)
  else ensureNl (kv.1 ++ strOf ": " ++ kv.2)

/-- Modelled from the spec: `lektor.metaformat.serialize` over a translated
field map (spec §4.4). -/
def serializeItems (ps : List (Str × Str)) : Str :=
  (ps.map serializeItem).flatten

/-- Parse a flow-block marker line (spec §3): `N` hashes, a space, the
block name, a space, `N` hashes again, with `N ≥ 4` and both runs of
equal length. -/
def markerParse (line : Str) : Option (Nat × Str) :=
  let core := stripNlEnd line
  let n := (core.takeWhile (· == '#')).length
  let m := (core.reverse.takeWhile (· == '#')).length
  if 4 ≤ n ∧ m = n ∧ 2 * n + 3 ≤ core.length ∧
      core.get? n = some ' ' ∧ core.get? (core.length - n - 1) = some ' ' then
    some (n, (core.drop (n + 1)).take (core.length - 2 * n - 2))
  else none

/-- Append a pending flow block, if any. -/
def fbFlush (st : Option (Str × Str)) (acc : List (Str × Str)) : List (Str × Str) :=
  match st with
  | none => acc
  | some b => acc ++ [b]

/-- One step of the flow-block scanner at nesting level `lvl`. -/
def fbStep (lvl : Nat) (p : List (Str × Str) × Option (Str × Str)) (line : Str) :
    List (Str × Str) × Option (Str × Str) :=
  match markerParse line with
  | some (n, name) =>
    if n = lvl then (fbFlush p.2 p.1, some (name, []))
    else
      match p.2 with
      | none => p
      | some (nm, buf) => (p.1, some (nm, buf ++ line))
  | none =>
    match p.2 with
    | none => p
    | some (nm, buf) => (p.1, some (nm, buf ++ line))

/-- Modelled from the spec: `lektor.types.flow.process_flowblock_data`
(spec §3, §4.2): splits flow-field text into ordered
`(sub-block name, raw value)` pairs at the marker lines of the outermost
hash-run length present; deeper marker lines (longer hash runs) stay
inside the enclosing block's raw value. -/
def processFlowblockData (s : Str) : List (Str × Str) :=
  let lines := splitLinesKeepNl s
  match (lines.filterMap markerParse).head? with
  | none => []
  | some (lvl, _) =>
    let r := lines.foldl (fbStep lvl) ([], none)
    fbFlush r.2 r.1

/-- `"\n".join(item.strip() for item in lines if item)`
(`lektor_i18n.py:357-363`): drop empty raw lines, strip the rest, and
join them with single newlines. -/
def joinStrippedLines (lines : List Str) : Str :=
  joinSep (strOf "\n") ((lines.filter (fun l => !l.isEmpty)).map pyStrip)

/-- Model of `I18NPlugin.translate_field` (`lektor_i18n.py:377-400`),
with `I18NPlugin.translate_flowblock` (`lektor_i18n.py:345-375`) inlined
in the flow branch.  The extra `fuel` argument bounds the recursion depth
of the Python mutual recursion (any value at least the nesting depth of
the document computes the same result); at fuel `0` the flow branch
returns the content unchanged.  A block name missing from the flow-block
model table is treated as a model with no fields. -/
def translateFieldGo (fb : Str → Option (List Field)) (catalogs : Catalogs)
    (parwise : Bool) (language : Str) : Nat → Field → Str → Nat → Str
  | fuel, f, content, nested =>
    if truthyTranslate f.translate then
      let tr := trOf catalogs language
      if parwise then transParwise tr content else transLinewise tr content
    else if f.isFlow then
      match fuel with
      | 0 => content
      | fuel' + 1 =>
        pyStrip (((processFlowblockData content).map (fun bb =>
          let blocksep := List.replicate (4 + nested) '#'
          let marker := blocksep ++ strOf " " ++ bb.1 ++ strOf " " ++ blocksep ++ strOf "\n"
          let blockcontent := dedupKeys (tokenize bb.2)
          let items := ((fb bb.1).getD []).filterMap (fun ff =>
            (lookupKV blockcontent ff.name).map (fun lines =>
              (ff.name,
                translateFieldGo fb catalogs parwise language fuel' ff
                  (joinStrippedLines lines) (nested + 1))))
          marker ++ serializeItems items)).flatten)
    else content

/-- Model of `I18NPlugin.translate_flowblock` (`lektor_i18n.py:345-375`):
emit each sub-block with a marker of `4 + nested` hashes and its name,
then the sub-block's fields translated recursively and re-serialized;
finally strip the concatenation. -/
def translateFlowblockGo (fb : Str → Option (List Field)) (catalogs : Catalogs)
    (parwise : Bool) (language : Str) (fuel : Nat) (content : Str) (nested : Nat) : Str :=
  pyStrip (((processFlowblockData content).map (fun bb =>
    let blocksep := List.replicate (4 + nested) '#'
    let marker := blocksep ++ strOf " " ++ bb.1 ++ strOf " " ++ blocksep ++ strOf "\n"
    let blockcontent := dedupKeys (tokenize bb.2)
    let items := ((fb bb.1).getD []).filterMap (fun ff =>
      (lookupKV blockcontent ff.name).map (fun lines =>
        (ff.name,
          translateFieldGo fb catalogs parwise language fuel ff
            (joinStrippedLines lines) (nested + 1))))
    marker ++ serializeItems items)).flatten)

/-- The per-document content map of `I18NPlugin.translate_contents`
(`lektor_i18n.py:440-449`): a copy of the tokenized content, with every
datamodel field's value translated when the target language differs from
the content language. -/
def contentAltFor (fb : Str → Option (List Field)) (catalogs : Catalogs)
    (parwise : Bool) (contentLanguage : Str) (fields : List Field) (fuel : Nat)
    (language : Str) (doc : Str) : List (Str × Str) :=
  let content := dedupKeys ((tokenize doc).map (fun kv => (kv.1, kv.2.flatten)))
  if language = contentLanguage then content
  else
    content.map (fun kv =>
      match fields.find? (fun f => f.name == kv.1) with
      | some f => (kv.1, translateFieldGo fb catalogs parwise language fuel f kv.2 0)
      | none => kv)

/-- The bytes written to `contents+<language>.lr` for one document by
`I18NPlugin.translate_contents` (`lektor_i18n.py:450-455`). -/
def translateContentsDoc (fb : Str → Option (List Field)) (catalogs : Catalogs)
    (parwise : Bool) (contentLanguage : Str) (fields : List Field) (fuel : Nat)
    (language : Str) (doc : Str) : Str :=
  serializeItems (contentAltFor fb catalogs parwise contentLanguage fields fuel language doc)

/-- The Translation Memory (`Translations` at `lektor_i18n.py:83-98`): an
ordered mapping from unit text to the ordered list of its source
locations. -/
abbrev Translations := List (Str × List Str)

/-- Model of `Translations.add` (`lektor_i18n.py:90-95`): create the
entry first when the text is new, then append the location when it is not
already recorded for that text. -/
def Translations.add (mem : Translations) (text source : Str) : Translations :=
  let mem1 := if mem.any (fun e => e.1 == text) then mem else mem ++ [(text, [])]
  mem1.map (fun e =>
    if e.1 == text then
      (e.1, if e.2.any (fun s => s == source) then e.2 else e.2 ++ [source])
    else e)

/-- The unit keys of a Translation Memory, in insertion order. -/
def memKeys (mem : Translations) : List Str := mem.map Prod.fst

/-- Lektor's `PRIMARY_ALT` constant, modelled from the spec (the
canonical/primary variant tag, a host-library external). -/
def primaryAlt : Str := strOf "_primary"

/-- Document metadata consumed by the extraction pass: the variant/locale
tag (`source.alt`), the relative source path after stripping the
language tag (`lektor_i18n.py:300-302`), and the resolved public URL
(`urljoin(self.url_prefix, source.url_path)`, `lektor_i18n.py:323`). -/
structure SrcInfo where
  alt : Str
  relpath : Str
  url : Str

/-- The source-location string recorded for one extracted unit
(`lektor_i18n.py:322-326`). -/
def locationOf (src : SrcInfo) (zone fieldName : Str) : Str :=
  src.url ++ strOf " " ++ src.relpath ++ strOf ":" ++ zone ++ strOf "." ++ fieldName

/-- The direct-extraction step of `I18NPlugin.process_node` for one field
(`lektor_i18n.py:303-327`): when the `translate` option is truthy and the
document's variant is the primary one or the content language, split the
field's section into units (paragraphs, or stripped non-blank lines) and
add each, stripped of surrounding CR/LF, to the memory. -/
def extractStep (parwise : Bool) (contentLanguage : Str) (src : SrcInfo)
    (sections : List (Str × List Str)) (zone : Str) (mem : Translations)
    (f : Field) : Translations :=
  if truthyTranslate f.translate &&
      (src.alt == primaryAlt || src.alt == contentLanguage) then
    match lookupKV sections f.name with
    | some sectionLines =>
      let chunks :=
        if parwise then splitParagraphs sectionLines.flatten
        else
          sectionLines.filterMap (fun line =>
            let lineStripped := hlStrip (pyStrip line)
            if lineStripped.isEmpty then none else some lineStripped)
      chunks.foldl
        (fun m chunk => Translations.add m (stripCRLF chunk) (locationOf src zone f.name))
        mem
    | none => mem
  else mem

/-- Model of `I18NPlugin.process_node` (`lektor_i18n.py:297-343`): fold the
direct-extraction step over the fields and recurse into flow blocks, the
recursion depth bounded by `fuel` (any value at least the document's flow
nesting depth computes the same memory). -/
def processNodeGo (fb : Str → Option (List Field)) (parwise : Bool)
    (contentLanguage : Str) (src : SrcInfo) :
    Nat → List Field → List (Str × List Str) → Str → Translations → Translations
  | 0, fields, sections, zone, mem =>
    fields.foldl (fun m f => extractStep parwise contentLanguage src sections zone m f) mem
  | fuel + 1, fields, sections, zone, mem =>
    fields.foldl
      (fun m f =>
        let m1 := extractStep parwise contentLanguage src sections zone m f
        if f.isFlow then
          match lookupKV sections f.name with
          | some sectionLines =>
            (processFlowblockData sectionLines.flatten).foldl
              (fun mm bb =>
                processNodeGo fb parwise contentLanguage src fuel
                  ((fb bb.1).getD []) (dedupKeys (tokenize bb.2)) bb.1 mm)
              m1
          | none => m1
        else m1)
      mem

/-- The fixed `POT_HEADER` (`lektor_i18n.py:29-42`) with the
`%(NOW)s` / `%(LANGUAGE)s` placeholders substituted. -/
def potHeader (language now : Str) : Str :=
  strOf "msgid \"\"\nmsgstr \"\"\n\"Project-Id-Version: PACKAGE VERSION\\n\"\n\"Report-Msgid-Bugs-To: \\n\"\n\"POT-Creation-Date: "
    ++ now
    ++ strOf "\\n\"\n\"PO-Revision-Date: YEAR-MO-DA HO:MI+ZONE\\n\"\n\"Last-Translator: FULL NAME <EMAIL@ADDRESS>\\n\"\n\"Language-Team: "
    ++ language
    ++ strOf " <LL@li.org>\\n\"\n\"Language: "
    ++ language
    ++ strOf "\\n\"\n\"MIME-Version: 1.0\\n\"\n\"Content-Type: text/plain; charset=UTF-8\\n\"\n\"Content-Transfer-Encoding: 8bit\\n\"\n\n"

/-- The escaping loop of `Translations.as_pot` (`lektor_i18n.py:107-113`):
four sequential global replacements, backslash first. -/
def potEscape (msg : Str) : Str :=
  replaceAll
    (replaceAll
      (replaceAll
        (replaceAll msg (strOf "\\") (strOf "\\\\"))
        (strOf "\n") (strOf "\\n"))
      (strOf "\t") (strOf "\\t"))
    (strOf "\"") (strOf "\\\"")

/-- Model of `Translations.as_pot` (`lektor_i18n.py:100-116`); the
generation timestamp is passed in as `now`. -/
def asPot (mem : Translations) (contentLanguage now : Str) : Str :=
  mem.foldl
    (fun result e =>
      result ++ strOf "#: " ++ joinSep (strOf " ") e.2 ++ strOf "\n"
        ++ strOf "msgid \"" ++ potEscape e.1 ++ strOf "\"\n"
        ++ strOf "msgstr \"\"\n\n")
    (potHeader contentLanguage now)

/-- Parsing of the `translations` configuration value in
`I18NPlugin.on_setup_env` (`lektor_i18n.py:279-288`): a missing value
(`config.get` returns `None`, so `.replace` raises `AttributeError`)
becomes a fatal `RuntimeError` before any document is processed; a
present value is split on commas after removing spaces. -/
def parseTranslations (cfg : Option Str) : Except Str (List Str) :=
  match cfg with
  | none =>
    .error (strOf "Please specify the 'translations' configuration option in configs/i18n.ini")
  | some s => .ok (splitOnChar ',' (replaceAll s (strOf " ") []))

/-- The final language list of `on_setup_env` (`lektor_i18n.py:290-291`):
the configured list with the content language appended when absent. -/
def setupLanguages (parsed : List Str) (contentLanguage : Str) : List Str :=
  if contentLanguage ∈ parsed then parsed else parsed ++ [contentLanguage]

/-! Concrete fixtures used by the claim theorems. -/

/-- Field schema of the spec §8 scenario: `title` translatable, `body` a
plain field without a `translate` option. -/
def titleBodyFields : List Field :=
  [⟨strOf "title", false, some (.s (strOf "true"))⟩, ⟨strOf "body", false, none⟩]

/-- Catalogs with a single compiled `fr` catalog mapping `Hello ↦ Bonjour`. -/
def helloCatalogs : Catalogs := fun l =>
  if l == strOf "fr" then some [(strOf "Hello", strOf "Bonjour")] else none

/-- Catalogs with no compiled catalog for any language. -/
def noCatalogs : Catalogs := fun _ => none

/-- A single translatable scalar field named `t`. -/
def tField : Field := ⟨strOf "t", false, some (.s (strOf "true"))⟩

/-- Flow-block models for the nested scenario of spec §8: block `outer`
holds a structured field `content`, block `inner` holds a translatable
field `t`. -/
def flowDemoModels : Str → Option (List Field) := fun n =>
  if n == strOf "outer" then some [⟨strOf "content", true, none⟩]
  else if n == strOf "inner" then some [⟨strOf "t", false, some (.s (strOf "true"))⟩]
  else none

/-- Flow-field raw content with a depth-0 block `outer` (4-hash markers)
containing a depth-1 block `inner` (5-hash markers). -/
def nestedFlowContent : Str :=
  strOf "#### outer ####\ncontent:\n##### inner #####\nt: x\n"

/-- Extraction metadata of a primary-variant demo document. -/
def demoSrc : SrcInfo :=
  ⟨primaryAlt, strOf "site/contents.lr", strOf "http://localhost/site/"⟩

/-- Extraction metadata of an already-translated (`de`) variant. -/
def deSrc : SrcInfo :=
  ⟨strOf "de", strOf "site/contents.lr", strOf "http://localhost/site/"⟩

/-! Generic fold helpers. -/

theorem foldl_fixed {α β : Type} (g : β → α → β) (l : List α) (b : β)
    (h : ∀ x ∈ l, ∀ m, g m x = m) : l.foldl g b = b := by
  induction l generalizing b with
  | nil => rfl
  | cons x xs ih =>
    rw [List.foldl_cons, h x (by simp), ih]
    intro y hy m
    exact h y (List.mem_cons_of_mem x hy) m

/-- Membership in the memory keys matches the `any` check of
`Translations.add`. -/
theorem any_keys_iff (mem : Translations) (t : Str) :
    (mem.any (fun e => e.1 == t) = true) ↔ t ∈ memKeys mem := by
  rw [List.any_eq_true]
  constructor
  · rintro ⟨e, he, hbeq⟩
    exact List.mem_map.mpr ⟨e, he, beq_iff_eq.mp hbeq⟩
  · intro ht
    obtain ⟨e, he, hfst⟩ := List.mem_map.mp ht
    exact ⟨e, he, beq_iff_eq.mpr hfst⟩

/-! ### C9 -/

/-- C9: a missing `translations` configuration value makes setup fail fast
with a fatal error before any document is processed, while a present value
is parsed into the language list by removing spaces and splitting on
commas. -/
theorem c9_missing_config_fatal :
    parseTranslations none
      = .error (strOf "Please specify the 'translations' configuration option in configs/i18n.ini")
    ∧ ∀ s : Str, parseTranslations (some s)
      = .ok (splitOnChar ',' (replaceAll s (strOf " ") [])) := by
  exact ⟨rfl, fun s => rfl⟩

/-! ### C10 -/

/-- C10: after setup the content language is always a member of the target
language list, and the content map emitted for the content language itself
is the unmodified tokenized content of the document (every field kept
verbatim). -/
theorem c10_source_language_copy :
    (∀ (parsed : List Str) (contentLanguage : Str),
        contentLanguage ∈ setupLanguages parsed contentLanguage)
    ∧ ∀ (fb : Str → Option (List Field)) (catalogs : Catalogs) (parwise : Bool)
        (fields : List Field) (fuel : Nat) (contentLanguage : Str) (doc : Str),
        contentAltFor fb catalogs parwise contentLanguage fields fuel contentLanguage doc
          = dedupKeys ((tokenize doc).map (fun kv => (kv.1, kv.2.flatten))) := by
  constructor
  · intro parsed contentLanguage
    unfold setupLanguages
    by_cases h : contentLanguage ∈ parsed
    · rwa [if_pos h]
    · rw [if_neg h]
      simp
  · intro fb catalogs parwise fields fuel contentLanguage doc
    simp [contentAltFor]

/-! ### C8 -/

/-- The extraction step is a no-op for a document whose variant tag is
neither the primary one nor the content language. -/
theorem extractStep_other_alt (parwise : Bool) (contentLanguage : Str) (src : SrcInfo)
    (h1 : src.alt ≠ primaryAlt) (h2 : src.alt ≠ contentLanguage)
    (sections : List (Str × List Str)) (zone : Str) (mem : Translations) (f : Field) :
    extractStep parwise contentLanguage src sections zone mem f = mem := by
  unfold extractStep
  have e1 : (src.alt == primaryAlt) = false := beq_eq_false_iff_ne.mpr h1
  have e2 : (src.alt == contentLanguage) = false := beq_eq_false_iff_ne.mpr h2
  rw [e1, e2]
  simp

/-- C8: processing a document whose variant/locale tag is neither the
primary one nor the configured content language leaves the Translation
Memory unchanged — no units are extracted from it, at any flow nesting
depth. -/
theorem c8_translated_variant_extracts_nothing (fb : Str → Option (List Field))
    (parwise : Bool) (contentLanguage : Str) (src : SrcInfo)
    (h1 : src.alt ≠ primaryAlt) (h2 : src.alt ≠ contentLanguage) :
    ∀ (fuel : Nat) (fields : List Field) (sections : List (Str × List Str))
      (zone : Str) (mem : Translations),
      processNodeGo fb parwise contentLanguage src fuel fields sections zone mem = mem := by
  intro fuel
  induction fuel with
  | zero =>
    intro fields sections zone mem
    exact foldl_fixed _ _ _ (fun f _ m =>
      extractStep_other_alt parwise contentLanguage src h1 h2 sections zone m f)
  | succ fuel ih =>
    intro fields sections zone mem
    refine foldl_fixed _ _ _ ?_
    intro f _ m
    simp only [extractStep_other_alt parwise contentLanguage src h1 h2 sections zone m f]
    by_cases hf : f.isFlow
    · rw [if_pos hf]
      cases hsec : lookupKV sections f.name with
      | none => rfl
      | some sectionLines =>
        exact foldl_fixed _ _ _ (fun bb _ mm => ih _ _ _ mm)
    · rw [if_neg hf]

/-- Witness for C8 at a concrete translated-variant document. -/
theorem c8_translated_variant_extracts_nothing_witness :
    processNodeGo flowDemoModels false (strOf "en") deSrc 3 [tField]
      [(strOf "t", [strOf "Hello\n"])] (strOf "page") [] = [] :=
  c8_translated_variant_extracts_nothing flowDemoModels false (strOf "en") deSrc
    (by decide) (by decide) 3 [tField] [(strOf "t", [strOf "Hello\n"])] (strOf "page") []

/-! ### C6 -/

/-- C6: when no compiled catalog exists for a language the translate
lookup is the identity on every unit, and consequently a translatable
field rewritten line-wise for that language is returned byte-for-byte
unchanged — the missing catalog never produces an error value. -/
theorem c6_missing_catalog_degrades_to_identity (catalogs : Catalogs) (language : Str)
    (h : catalogs language = none) :
    (∀ u : Str, trOf catalogs language u = u)
    ∧ ∀ (fb : Str → Option (List Field)) (fuel : Nat) (f : Field) (content : Str)
        (nested : Nat), truthyTranslate f.translate = true →
        translateFieldGo fb catalogs false language fuel f content nested = content := by
  have hid : trOf catalogs language = fun u => u := by
    funext u
    unfold trOf
    rw [h]
  constructor
  · intro u
    rw [hid]
  · intro fb fuel f content nested htr
    rw [translateFieldGo.eq_def]
    simp [htr, hid, transLinewise_id]

/-- Witness for C6: with no compiled catalogs, the lookup echoes a unit
and a translatable field's content is rewritten unchanged. -/
theorem c6_missing_catalog_degrades_to_identity_witness :
    trOf noCatalogs (strOf "fr") (strOf "Hello") = strOf "Hello"
    ∧ translateFieldGo flowDemoModels noCatalogs false (strOf "fr") 3 tField
        (strOf "# Hello\nWorld\n") 0 = strOf "# Hello\nWorld\n" :=
  ⟨(c6_missing_catalog_degrades_to_identity noCatalogs (strOf "fr") rfl).1 (strOf "Hello"),
   (c6_missing_catalog_degrades_to_identity noCatalogs (strOf "fr") rfl).2
     flowDemoModels 3 tField (strOf "# Hello\nWorld\n") 0 (by decide)⟩

/-! ### C3 -/

/-- With keys unique, a successful lookup pins down the value of every
entry carrying the looked-up key. -/
theorem lookup_nodup_unique {mem : Translations} {t : Str} {ss : List Str}
    (hnd : (memKeys mem).Nodup) (hl : lookupKV mem t = some ss) :
    ∀ e ∈ mem, e.1 = t → e.2 = ss := by
  induction mem with
  | nil => simp [lookupKV] at hl
  | cons e0 rest ih =>
    intro e he hekey
    by_cases h0 : e0.1 = t
    · have hfind : lookupKV (e0 :: rest) t = some e0.2 := by
        unfold lookupKV
        rw [List.find?_cons]
        simp [h0]
      have hss : ss = e0.2 := by
        rw [hfind] at hl
        exact (Option.some_inj.mp hl).symm
      rcases List.mem_cons.mp he with he0 | herest
      · rw [he0, hss]
      · exfalso
        have : e0.1 ∈ memKeys rest := by
          rw [h0, ← hekey]
          exact List.mem_map.mpr ⟨e, herest, rfl⟩
        exact (List.nodup_cons.mp hnd).1 this
    · have hfind : lookupKV (e0 :: rest) t = lookupKV rest t := by
        unfold lookupKV
        rw [List.find?_cons]
        simp [beq_eq_false_iff_ne.mpr h0]
      rcases List.mem_cons.mp he with he0 | herest
      · exact absurd (he0 ▸ hekey) h0
      · exact ih (List.nodup_cons.mp hnd).2 (hfind ▸ hl) e herest hekey

/-- C3: `Translations.add` is an idempotent insert — the key list gains
`text` exactly when it was absent (first-seen order kept), re-adding a
recorded location changes nothing, a fresh unit is appended at the end
with its single location, and adding one unit from two distinct locations
yields one entry holding both locations in order. -/
theorem c3_memory_add_idempotent :
    (∀ (mem : Translations) (t s : Str),
        memKeys (Translations.add mem t s)
          = if t ∈ memKeys mem then memKeys mem else memKeys mem ++ [t])
    ∧ (∀ (mem : Translations) (t s : Str) (ss : List Str),
        (memKeys mem).Nodup → lookupKV mem t = some ss → s ∈ ss →
        Translations.add mem t s = mem)
    ∧ (∀ (mem : Translations) (t s : Str), t ∉ memKeys mem →
        Translations.add mem t s = mem ++ [(t, [s])])
    ∧ Translations.add (Translations.add [] (strOf "Hello") (strOf "loc1"))
        (strOf "Hello") (strOf "loc2")
        = [(strOf "Hello", [strOf "loc1", strOf "loc2"])] := by
  refine ⟨?_, ?_, ?_, by decide⟩
  · intro mem t s
    unfold Translations.add
    have hkeys : ∀ m : Translations,
        memKeys (m.map (fun e =>
          if e.1 == t then
            (e.1, if e.2.any (fun s' => s' == s) then e.2 else e.2 ++ [s])
          else e)) = memKeys m := by
      intro m
      unfold memKeys
      rw [List.map_map]
      refine List.map_congr_left ?_
      intro e _
      by_cases he : e.1 = t <;> simp [he]
    by_cases hmem : t ∈ memKeys mem
    · rw [if_pos hmem, if_pos ((any_keys_iff mem t).mpr hmem)]
      exact hkeys mem
    · have hany : mem.any (fun e => e.1 == t) = false := by
        rcases h : mem.any (fun e => e.1 == t) with _ | _
        · rfl
        · exact absurd ((any_keys_iff mem t).mp h) hmem
      rw [if_neg hmem, hany]
      simp only [Bool.false_eq_true, if_false]
      rw [hkeys (mem ++ [(t, [])])]
      unfold memKeys
      simp
  · intro mem t s ss hnd hl hs
    obtain ⟨p, hfind, hpval⟩ := Option.map_eq_some'.mp hl
    have hpmem : p ∈ mem := List.mem_of_find?_eq_some hfind
    have hpbeq : (p.1 == t) = true := by
      have := List.find?_some hfind
      simpa using this
    have hpkey : p.1 = t := beq_iff_eq.mp hpbeq
    unfold Translations.add
    have hany : mem.any (fun e => e.1 == t) = true :=
      (any_keys_iff mem t).mpr (List.mem_map.mpr ⟨p, hpmem, hpkey⟩)
    rw [hany]
    simp only [if_true]
    have : ∀ e ∈ mem, (if e.1 == t then
        (e.1, if e.2.any (fun s' => s' == s) then e.2 else e.2 ++ [s]) else e) = e := by
      intro e he
      by_cases hek : e.1 = t
      · have hess : e.2 = ss := lookup_nodup_unique hnd hl e he hek
        have hsany : e.2.any (fun s' => s' == s) = true :=
          List.any_eq_true.mpr ⟨s, by rw [hess]; exact hs, beq_self_eq_true s⟩
        rw [if_pos (beq_iff_eq.mpr hek), hsany]
        simp
      · rw [if_neg (by simpa using hek)]
    rw [List.map_congr_left this]
    simp
  · intro mem t s hmem
    unfold Translations.add
    have hany : mem.any (fun e => e.1 == t) = false := by
      rcases h : mem.any (fun e => e.1 == t) with _ | _
      · rfl
      · exact absurd ((any_keys_iff mem t).mp h) hmem
    rw [hany]
    simp only [Bool.false_eq_true, if_false]
    rw [List.map_append]
    have hmap : ∀ e ∈ mem, (if e.1 == t then
        (e.1, if e.2.any (fun s' => s' == s) then e.2 else e.2 ++ [s]) else e) = e := by
      intro e he
      have : e.1 ≠ t := fun hek => hmem (List.mem_map.mpr ⟨e, he, hek⟩)
      rw [if_neg (by simpa using this)]
    rw [List.map_congr_left hmap]
    simp

/-- Witness for C3 at concrete memories. -/
theorem c3_memory_add_idempotent_witness :
    memKeys (Translations.add [(strOf "a", [strOf "l1"])] (strOf "a") (strOf "l2"))
      = [strOf "a"]
    ∧ Translations.add [(strOf "a", [strOf "l1"])] (strOf "a") (strOf "l1")
      = [(strOf "a", [strOf "l1"])]
    ∧ Translations.add [(strOf "a", [strOf "l1"])] (strOf "b") (strOf "l2")
      = [(strOf "a", [strOf "l1"]), (strOf "b", [strOf "l2"])] := by
  refine ⟨?_, ?_, ?_⟩
  · have h := c3_memory_add_idempotent.1 [(strOf "a", [strOf "l1"])] (strOf "a") (strOf "l2")
    rwa [if_pos (by decide)] at h
  · exact c3_memory_add_idempotent.2.1 [(strOf "a", [strOf "l1"])] (strOf "a") (strOf "l1")
      [strOf "l1"] (by decide) (by decide) (by decide)
  · exact c3_memory_add_idempotent.2.2.1 [(strOf "a", [strOf "l1"])] (strOf "b") (strOf "l2")
      (by decide)

/-! ### C7 -/

/-- Global replacement of one character, in map-and-concatenate form. -/
def charRepl (c : Char) (r : Str) (s : Str) : Str :=
  (s.map (fun x => if x = c then r else [x])).flatten

theorem replaceAllGo_singleton (c : Char) (r : Str) :
    ∀ fuel l, l.length ≤ fuel → replaceAllGo [c] r fuel l = charRepl c r l := by
  intro fuel
  induction fuel with
  | zero =>
    intro l hl
    have : l = [] := List.length_eq_zero.mp (Nat.le_zero.mp hl)
    simp [this, replaceAllGo, charRepl]
  | succ fuel ih =>
    intro l hl
    cases l with
    | nil => simp [replaceAllGo, charRepl]
    | cons x rest =>
      have hrest : rest.length ≤ fuel := by
        have := hl
        simp only [List.length_cons] at this
        omega
      simp only [replaceAllGo, List.isPrefixOf, Bool.and_true, List.isPrefixOf_nil_left]
      by_cases hx : c = x
      · rw [if_pos (by simpa using beq_iff_eq.mpr hx)]
        simp only [List.length_cons, List.length_nil, Nat.zero_add, List.drop_succ_cons,
          List.drop_zero]
        rw [ih rest hrest]
        simp [charRepl, hx.symm]
      · rw [if_neg (by simpa using hx)]
        rw [ih rest hrest]
        have hxc : ¬x = c := fun h => hx h.symm
        simp [charRepl, hxc]

/-- Python `replace` with a single-character pattern replaces exactly the
occurrences of that character. -/
theorem replaceAll_singleton (l : Str) (c : Char) (r : Str) :
    replaceAll l [c] r = charRepl c r l := by
  unfold replaceAll
  exact replaceAllGo_singleton c r l.length l (Nat.le_refl _)

theorem charRepl_cons (c : Char) (r : Str) (x : Char) (l : Str) :
    charRepl c r (x :: l) = (if x = c then r else [x]) ++ charRepl c r l := by
  simp [charRepl]

theorem charRepl_append (c : Char) (r : Str) (a b : Str) :
    charRepl c r (a ++ b) = charRepl c r a ++ charRepl c r b := by
  simp [charRepl]

/-- The character-wise escaping described by the spec for catalog-template
identifier lines (spec §4.3: `\`, newline, tab and double quote are
escaped); spec-side rendering used to check `as_pot`. -/
def escapeCharSpec (c : Char) : Str :=
  if c = '\\' then strOf "\\\\"
  else if c = '\n' then strOf "\\n"
  else if c = '\t' then strOf "\\t"
  else if c = '"' then strOf "\\\""
  else [c]

/-- Spec-side escaping of a whole unit text. -/
def escapePerSpec (s : Str) : Str := (s.map escapeCharSpec).flatten

/-- The sequential-replacement escaping of `as_pot` agrees with the
character-wise escaping described by the spec (the backslash replacement
runs first, so later replacements never re-escape earlier output). -/
theorem potEscape_eq_escapePerSpec (s : Str) : potEscape s = escapePerSpec s := by
  unfold potEscape
  rw [show strOf "\\" = ['\\'] from rfl, show strOf "\n" = ['\n'] from rfl,
      show strOf "\t" = ['\t'] from rfl, show strOf "\"" = ['"'] from rfl]
  rw [replaceAll_singleton, replaceAll_singleton, replaceAll_singleton, replaceAll_singleton]
  induction s with
  | nil => rfl
  | cons c rest ih =>
    simp only [charRepl_cons, charRepl_append]
    rw [ih]
    have hhead : charRepl '"' (strOf "\\\"")
        (charRepl '\t' (strOf "\\t")
          (charRepl '\n' (strOf "\\n") (if c = '\\' then strOf "\\\\" else [c])))
        = escapeCharSpec c := by
      by_cases h1 : c = '\\'
      · subst h1; decide
      · rw [if_neg h1]
        by_cases h2 : c = '\n'
        · subst h2; decide
        · by_cases h3 : c = '\t'
          · subst h3; decide
          · by_cases h4 : c = '"'
            · subst h4; decide
            · simp [charRepl, escapeCharSpec, h1, h2, h3, h4]
    rw [hhead]
    simp [escapePerSpec]

/-- Accumulating appends in a fold is concatenating the per-entry texts. -/
theorem foldl_append_eq {α : Type} (g : Str → α → Str) (entry : α → Str)
    (hg : ∀ r e, g r e = r ++ entry e) (l : List α) (init : Str) :
    l.foldl g init = init ++ (l.map entry).flatten := by
  induction l generalizing init with
  | nil => simp
  | cons x xs ih =>
    rw [List.foldl_cons, hg, ih]
    simp [List.append_assoc]

/-- C7: rendering the memory produces the fixed header — carrying the
source-language tag and the generation timestamp — followed by one entry
per unit in first-added order: a `#: ` comment line with the locations
space-joined, a `msgid` line with the unit text escaped character-wise
(backslash, newline, tab, double quote), and an empty `msgstr`
placeholder. -/
theorem c7_pot_rendering (mem : Translations) (contentLanguage now : Str) :
    asPot mem contentLanguage now
      = potHeader contentLanguage now
        ++ (mem.map (fun e =>
              strOf "#: " ++ joinSep (strOf " ") e.2 ++ strOf "\n"
              ++ strOf "msgid \"" ++ escapePerSpec e.1 ++ strOf "\"\n"
              ++ strOf "msgstr \"\"\n\n")).flatten := by
  unfold asPot
  rw [foldl_append_eq _
    (fun e => strOf "#: " ++ joinSep (strOf " ") e.2 ++ strOf "\n"
      ++ strOf "msgid \"" ++ potEscape e.1 ++ strOf "\"\n" ++ strOf "msgstr \"\"\n\n")
    (fun r e => by simp [List.append_assoc])]
  congr 1
  congr 1
  refine List.map_congr_left ?_
  intro e _
  rw [potEscape_eq_escapePerSpec]

/-! ### C1 -/

/-- Flow-typed document field holding the nested demo content. -/
def flowField : Field := ⟨strOf "flowf", true, none⟩

/-- C1 counterexample: in paragraph mode, rewriting the document
`t: a\n\n\nb\n` with an identity catalog (no compiled catalog, so
`translate(x) = x` for every unit) yields `t: a\n\nb\n` — the
three-newline paragraph separator is normalized to two newlines, so the
output is not byte-identical to the original document. -/
theorem c1_identity_roundtrip_counterexample :
    translateContentsDoc (fun _ => none) noCatalogs true (strOf "en") [tField] 5 (strOf "fr")
        (strOf "t: a\n\n\nb\n")
      = strOf "t: a\n\nb\n"
    ∧ strOf "t: a\n\nb\n" ≠ strOf "t: a\n\n\nb\n" := by
  exact ⟨by decide, by decide⟩

/-- C1 (amended): with an identity catalog, line-wise rewriting is
byte-identity for every content; paragraph-wise rewriting reproduces each
paragraph but rejoins paragraphs with exactly two newlines (so
byte-identity holds only when every separator already is two newlines);
and rewriting a structured field with nested sub-blocks preserves the
marker hash-run lengths (4 hashes at depth 0, 5 at depth 1) and both
sub-block names, while extraction on the same nested document reaches
the inner unit. -/
theorem c1_identity_roundtrip_amended :
    (∀ content : Str, transLinewise (fun u => u) content = content)
    ∧ (∀ content : Str, transParwise (fun u => u) content
        = joinSep (strOf "\n\n") (splitParagraphs content))
    ∧ translateFlowblockGo flowDemoModels noCatalogs false (strOf "fr") 5 nestedFlowContent 0
        = strOf "#### outer ####\ncontent: ##### inner #####\nt: x"
    ∧ strOf "#### outer ####"
        <:+: translateFlowblockGo flowDemoModels noCatalogs false (strOf "fr") 5
          nestedFlowContent 0
    ∧ strOf "##### inner #####"
        <:+: translateFlowblockGo flowDemoModels noCatalogs false (strOf "fr") 5
          nestedFlowContent 0
    ∧ processNodeGo flowDemoModels false (strOf "en") demoSrc 5 [flowField]
        [(strOf "flowf", [nestedFlowContent])] (strOf "page") []
      = [(strOf "x", [strOf "http://localhost/site/ site/contents.lr:inner.t"])] := by
  exact ⟨transLinewise_id, transParwise_id, by decide, by decide, by decide, by decide⟩

/-! ### C2 -/

/-- C2 counterexample: a structured (flow) field whose `translate` option
is truthy IS translated directly as a single text — `translate_field`
checks the option before the type, so the content `Hello` of a flow field
comes back as the direct catalog translation `Bonjour` instead of being
recursed into. -/
theorem c2_field_translatability_counterexample :
    (Field.mk (strOf "x") true (some (.s (strOf "true")))).isFlow = true
    ∧ translateFieldGo flowDemoModels helloCatalogs false (strOf "fr") 5
        ⟨strOf "x", true, some (.s (strOf "true"))⟩ (strOf "Hello") 0
      = strOf "Bonjour"
    ∧ strOf "Bonjour" ≠ strOf "Hello" := by
  exact ⟨by decide, by decide, by decide⟩

/-- C2 (amended): a field is translated directly if and only if its
`translate` option is truthy (`"True"`, `"true"`, `"1"` or `1`),
regardless of its declared type; flow recursion in the rewrite pass
happens only when the option is not truthy; a field that is neither
truthy nor flow passes through unchanged; and the extraction step ignores
the declared type entirely, so flow fields with a truthy option are also
extracted directly. -/
theorem c2_field_translatability_amended (fb : Str → Option (List Field))
    (catalogs : Catalogs) (parwise : Bool) (language : Str) (fuel nested : Nat)
    (f : Field) (content : Str) :
    (truthyTranslate f.translate = true →
      translateFieldGo fb catalogs parwise language fuel f content nested
        = if parwise then transParwise (trOf catalogs language) content
          else transLinewise (trOf catalogs language) content)
    ∧ (truthyTranslate f.translate = false → f.isFlow = true →
      translateFieldGo fb catalogs parwise language (fuel + 1) f content nested
        = translateFlowblockGo fb catalogs parwise language fuel content nested)
    ∧ (truthyTranslate f.translate = false → f.isFlow = false →
      translateFieldGo fb catalogs parwise language fuel f content nested = content)
    ∧ (∀ (contentLanguage : Str) (src : SrcInfo) (sections : List (Str × List Str))
        (zone : Str) (mem : Translations) (b : Bool),
        extractStep parwise contentLanguage src sections zone mem ⟨f.name, b, f.translate⟩
          = extractStep parwise contentLanguage src sections zone mem
              ⟨f.name, f.isFlow, f.translate⟩) := by
  refine ⟨?_, ?_, ?_, ?_⟩
  · intro htr
    rw [translateFieldGo.eq_def]
    simp [htr]
  · intro htr hflow
    rw [translateFieldGo.eq_def]
    simp only [htr, Bool.false_eq_true, if_false, hflow, if_true]
    rfl
  · intro htr hflow
    rw [translateFieldGo.eq_def]
    simp [htr, hflow]
  · intro contentLanguage src sections zone mem b
    rfl

/-- Witness for C2 (amended) at concrete fields. -/
theorem c2_field_translatability_amended_witness :
    translateFieldGo flowDemoModels helloCatalogs false (strOf "fr") 3 tField
        (strOf "Hello") 0
      = transLinewise (trOf helloCatalogs (strOf "fr")) (strOf "Hello")
    ∧ translateFieldGo flowDemoModels noCatalogs false (strOf "fr") 4
        ⟨strOf "content", true, none⟩ nestedFlowContent 0
      = translateFlowblockGo flowDemoModels noCatalogs false (strOf "fr") 3
          nestedFlowContent 0
    ∧ translateFieldGo flowDemoModels noCatalogs false (strOf "fr") 3
        ⟨strOf "body", false, none⟩ (strOf "World") 0
      = strOf "World" := by
  refine ⟨?_, ?_, ?_⟩
  · have h := (c2_field_translatability_amended flowDemoModels helloCatalogs false
      (strOf "fr") 3 0 tField (strOf "Hello")).1 (by decide)
    simpa using h
  · exact (c2_field_translatability_amended flowDemoModels noCatalogs false
      (strOf "fr") 3 0 ⟨strOf "content", true, none⟩ nestedFlowContent).2.1
      (by decide) (by decide)
  · exact (c2_field_translatability_amended flowDemoModels noCatalogs false
      (strOf "fr") 3 0 ⟨strOf "body", false, none⟩ (strOf "World")).2.2.1
      (by decide) (by decide)

/-! ### C4 -/

/-- Right-stripping removes a suffix: the stripped string followed by the
removed characters is the original. -/
theorem stripRightBy_decomp (q : Char → Bool) (l : Str) :
    l = stripRightBy q l ++ (l.reverse.takeWhile q).reverse := by
  unfold stripRightBy
  calc l = l.reverse.reverse := (List.reverse_reverse l).symm
    _ = (l.reverse.takeWhile q ++ l.reverse.dropWhile q).reverse := by
        rw [List.takeWhile_append_dropWhile]
    _ = (l.reverse.dropWhile q).reverse ++ (l.reverse.takeWhile q).reverse := by
        rw [List.reverse_append]

/-- The heading/list stripper only removes a prefix of its input. -/
theorem hlStrip_suffix (s : Str) : hlStrip s <:+ s := by
  unfold hlStrip
  by_cases h : (s.dropWhile pySpace).head? = some '#'
  · rw [if_pos h]
    exact ((List.dropWhile_suffix _).trans (List.dropWhile_suffix _)).trans
      (List.dropWhile_suffix _)
  · rw [if_neg h]
    cases hd : s.dropWhile pySpace with
    | nil => exact List.suffix_refl s
    | cons c rest1 =>
      cases rest1 with
      | nil => exact List.suffix_refl s
      | cons c2 rest2 =>
        show (if (c = '*' ∨ c = '-') ∧ pySpace c2
          then (c2 :: rest2).dropWhile pySpace else s) <:+ s
        by_cases hc : (c = '*' ∨ c = '-') ∧ pySpace c2
        · rw [if_pos hc]
          refine (List.dropWhile_suffix _).trans ?_
          refine (List.suffix_cons c (c2 :: rest2)).trans ?_
          rw [← hd]
          exact List.dropWhile_suffix pySpace
        · rw [if_neg hc]

/-- The stripped unit of a line occurs inside the line. -/
theorem strippedUnit_occurs (line : Str) :
    ∃ a b, line = a ++ hlStrip (pyStrip line) ++ b := by
  obtain ⟨a2, ha2⟩ := hlStrip_suffix (pyStrip line)
  have h1 : line = line.takeWhile pySpace ++ line.dropWhile pySpace :=
    (List.takeWhile_append_dropWhile pySpace line).symm
  have h2 : line.dropWhile pySpace
      = pyStrip line ++ ((line.dropWhile pySpace).reverse.takeWhile pySpace).reverse := by
    have := stripRightBy_decomp pySpace (line.dropWhile pySpace)
    simpa [pyStrip, stripLeftBy] using this
  refine ⟨line.takeWhile pySpace ++ a2,
    ((line.dropWhile pySpace).reverse.takeWhile pySpace).reverse, ?_⟩
  calc line = line.takeWhile pySpace ++ line.dropWhile pySpace := h1
    _ = line.takeWhile pySpace
        ++ (pyStrip line ++ ((line.dropWhile pySpace).reverse.takeWhile pySpace).reverse) := by
        rw [← h2]
    _ = line.takeWhile pySpace
        ++ ((a2 ++ hlStrip (pyStrip line))
            ++ ((line.dropWhile pySpace).reverse.takeWhile pySpace).reverse) := by
        rw [ha2]
    _ = line.takeWhile pySpace ++ a2 ++ hlStrip (pyStrip line)
        ++ ((line.dropWhile pySpace).reverse.takeWhile pySpace).reverse := by
        simp [List.append_assoc]

/-- `replaceFirst` replaces exactly one occurrence of a (present,
non-empty) pattern: the output is the input with the pattern's first
occurrence swapped for the replacement and everything around it kept. -/
theorem replaceFirst_splice (p n : Str) (hp : p ≠ []) :
    ∀ (l a b : Str), l = a ++ p ++ b →
      ∃ pre suf, l = pre ++ p ++ suf ∧ replaceFirst l p n = pre ++ n ++ suf := by
  intro l
  induction l with
  | nil =>
    intro a b hab
    exfalso
    rcases p with _ | ⟨q, qs⟩
    · exact hp rfl
    · have := congrArg List.length hab
      simp [List.length_append] at this
      omega
  | cons c rest ih =>
    intro a b hab
    rcases hq : p with _ | ⟨q, qs⟩
    · exact absurd hq hp
    · by_cases hpre : (q :: qs).isPrefixOf (c :: rest)
      · obtain ⟨t, ht⟩ := List.isPrefixOf_iff_prefix.mp hpre
        refine ⟨[], t, by simp [← ht], ?_⟩
        simp only [replaceFirst, if_pos hpre]
        rw [← ht, List.drop_left' rfl]
        simp
      · cases a with
        | nil =>
          exfalso
          refine hpre (List.isPrefixOf_iff_prefix.mpr ⟨b, ?_⟩)
          rw [← hq]
          simpa using hab.symm
        | cons x a' =>
          have hc : c = x ∧ rest = a' ++ p ++ b := by
            rw [hq] at hab ⊢
            simpa using hab
          obtain ⟨pre', suf', h1, h2⟩ := ih a' b hc.2
          refine ⟨c :: pre', suf', by rw [← hq]; simp [h1], ?_⟩
          simp only [replaceFirst, if_neg hpre]
          rw [← hq, h2]
          simp

/-- C4: rewriting the scenario document `title: Hello\nbody:\nWorld\n`
line-wise with a catalog mapping `Hello ↦ Bonjour` yields
`title: Bonjour\nbody:\nWorld\n` with `body:\nWorld\n` verbatim; and in
general every line whose stripped unit is non-empty is rewritten by
substring-replacing exactly the stripped portion — the surrounding
characters (leading/trailing whitespace and any stripped heading/list
prefix) are preserved byte-for-byte around the translated unit. -/
theorem c4_linewise_splice :
    (translateContentsDoc (fun _ => none) helloCatalogs false (strOf "en") titleBodyFields 5
        (strOf "fr") (strOf "title: Hello\nbody:\nWorld\n")
      = strOf "title: Bonjour\nbody:\nWorld\n")
    ∧ ∀ (tr : Str → Str) (line : Str), hlStrip (pyStrip line) ≠ [] →
        ∃ pre suf, line = pre ++ hlStrip (pyStrip line) ++ suf
          ∧ transLine tr line = pre ++ tr (hlStrip (pyStrip line)) ++ suf := by
  constructor
  · decide
  · intro tr line hne
    obtain ⟨a, b, hab⟩ := strippedUnit_occurs line
    obtain ⟨pre, suf, h1, h2⟩ :=
      replaceFirst_splice (hlStrip (pyStrip line)) (tr (hlStrip (pyStrip line))) hne line a b hab
    refine ⟨pre, suf, h1, ?_⟩
    unfold transLine
    have hie : (hlStrip (pyStrip line)).isEmpty = false := by
      cases h : hlStrip (pyStrip line) with
      | nil => exact absurd h hne
      | cons _ _ => simp [h]
    simp only [hie, Bool.false_eq_true, if_false]
    exact h2

/-- Witness for C4 at a concrete line with leading whitespace and a
heading prefix. -/
theorem c4_linewise_splice_witness :
    translateContentsDoc (fun _ => none) helloCatalogs false (strOf "en") titleBodyFields 5
        (strOf "fr") (strOf "title: Hello\nbody:\nWorld\n")
      = strOf "title: Bonjour\nbody:\nWorld\n"
    ∧ ∃ pre suf, strOf "  # Hello " = pre ++ hlStrip (pyStrip (strOf "  # Hello ")) ++ suf
        ∧ transLine (fun _ => strOf "Bonjour") (strOf "  # Hello ")
          = pre ++ (fun _ => strOf "Bonjour") (hlStrip (pyStrip (strOf "  # Hello "))) ++ suf :=
  ⟨c4_linewise_splice.1,
   c4_linewise_splice.2 (fun _ => strOf "Bonjour") (strOf "  # Hello ") (by decide)⟩

/-! ### C5 -/

/-- C5 counterexample: in paragraph mode the stored unit keeps surrounding
spaces — `chunk.strip("\r\n")` strips only CR and LF — so the paragraphs
`a` and ` a`, which differ only in one surrounding space, produce two
distinct Memory entries instead of deduplicating to one. -/
theorem c5_stored_units_counterexample :
    processNodeGo flowDemoModels true (strOf "en") demoSrc 1 [tField]
        [(strOf "t", [strOf "a\n", strOf "\n", strOf " a\n"])] (strOf "page") []
      = [(strOf "a", [strOf "http://localhost/site/ site/contents.lr:page.t"]),
         (strOf " a", [strOf "http://localhost/site/ site/contents.lr:page.t"])]
    ∧ (processNodeGo flowDemoModels true (strOf "en") demoSrc 1 [tField]
        [(strOf "t", [strOf "a\n", strOf "\n", strOf " a\n"])] (strOf "page") []).length
      = 2 := by
  exact ⟨by decide, by decide⟩

/-- C5 (amended): the stored text strips only carriage returns and
newlines from the unit's ends (surrounding spaces and tabs are kept);
heading/list-prefix stripping happens in line mode but not in paragraph
mode; and two paragraphs differing only in surrounding newlines do
deduplicate to one entry. -/
theorem c5_stored_units_amended :
    (∀ s : Str, ∃ pre suf, s = pre ++ stripCRLF s ++ suf
        ∧ pre.all crlfChar = true ∧ suf.all crlfChar = true)
    ∧ processNodeGo flowDemoModels false (strOf "en") demoSrc 1 [tField]
        [(strOf "t", [strOf "# Title\n"])] (strOf "page") []
      = [(strOf "Title", [strOf "http://localhost/site/ site/contents.lr:page.t"])]
    ∧ processNodeGo flowDemoModels true (strOf "en") demoSrc 1 [tField]
        [(strOf "t", [strOf "# Title\n"])] (strOf "page") []
      = [(strOf "# Title", [strOf "http://localhost/site/ site/contents.lr:page.t"])]
    ∧ processNodeGo flowDemoModels true (strOf "en") demoSrc 1 [tField]
        [(strOf "t", [strOf "a\n", strOf "\n", strOf "\n", strOf "a\n"])] (strOf "page") []
      = [(strOf "a", [strOf "http://localhost/site/ site/contents.lr:page.t"])] := by
  refine ⟨?_, by decide, by decide, by decide⟩
  intro s
  refine ⟨s.takeWhile crlfChar,
    ((s.dropWhile crlfChar).reverse.takeWhile crlfChar).reverse, ?_, ?_, ?_⟩
  · calc s = s.takeWhile crlfChar ++ s.dropWhile crlfChar :=
        (List.takeWhile_append_dropWhile crlfChar s).symm
      _ = s.takeWhile crlfChar ++ (stripCRLF s
          ++ ((s.dropWhile crlfChar).reverse.takeWhile crlfChar).reverse) := by
          unfold stripCRLF stripLeftBy
          rw [← stripRightBy_decomp]
      _ = s.takeWhile crlfChar ++ stripCRLF s
          ++ ((s.dropWhile crlfChar).reverse.takeWhile crlfChar).reverse := by
          simp [List.append_assoc]
  · exact List.all_takeWhile
  · rw [List.all_reverse]
    exact List.all_takeWhile

end LektorI18n


